import Mathlib

/-!
# Verification of the budget account tree (src/account.rs)

Shallow embedding of the Rust source. Modelling choices:

* `f64` amounts are modelled as exact rationals (`ℚ`); the literal `0.01`
  is the rational `1/100`.
* `Account { name, data: AccountType }` is flattened into a two-constructor
  inductive (`Leaf name balance max`, `Branch name children`), and the
  `Vec<BranchEntry>` of a branch becomes the custom list `Children` whose
  `cons` carries the entry's `Inflow` (so a `Children` cons cell is exactly
  a `BranchEntry`).
* The `while` loop in `Account::deposit`'s flex pass is modelled by
  `flex_loop d fuel`: it executes at most `fuel` iterations of the source
  loop body and stops early exactly when the source loop's condition
  (`total_flex != 0.0 && amount > 0.01`) fails.  Theorems that depend on
  the loop finishing carry an explicit bound showing the given fuel
  suffices.
* Mutation through `&mut` references returned by `find_child` is modelled
  by `update_at`, which rebuilds the tree with the transformed node spliced
  in at the position `find_child` locates (same traversal order).
-/

namespace Budget

/-! ## Data model and operations, embedded from src/account.rs -/

/-- Inflow policy of a branch entry (source: `enum Inflow`). -/
inductive Inflow where
  | Fixed (amount : ℚ)
  | Flex (weight : ℚ)


mutual

/-- Account tree (source: `struct Account` with `enum AccountType`,
flattened: a `Leaf` carries `name`, `balance`, `max`; a `Branch` carries
`name` and its children). -/
inductive Account where
  | Leaf (name : String) (balance : ℚ) (max : ℚ) : Account
  | Branch (name : String) (children : Children) : Account

/-- Children list of a branch (source: `Vec<BranchEntry>`); each cons cell
pairs the child account with its inflow, exactly like `BranchEntry`. -/
inductive Children where
  | nil : Children
  | cons (account : Account) (inflow : Inflow) (rest : Children) : Children

end

/-- Name of an account. -/
def nameOf : Account → String
  | .Leaf n _ _ => n
  | .Branch n _ => n


/-- Source: `Account::new_root`. -/
def new_root : Account := .Branch "root" .nil


mutual

/-- Source: `Account::balance` — a leaf's balance, or the sum over children. -/
def balance : Account → ℚ
  | .Leaf _ b _ => b
  | .Branch _ cs => balanceC cs

/-- Sum of `balance` over a children list. -/
def balanceC : Children → ℚ
  | .nil => 0
  | .cons a _ rest => balance a + balanceC rest

end

mutual

/-- Source: `BranchEntry::max` — a leaf's `max`, or the sum over children. -/
def maxTotal : Account → ℚ
  | .Leaf _ _ m => m
  | .Branch _ cs => maxTotalC cs

/-- Sum of `maxTotal` over a children list. -/
def maxTotalC : Children → ℚ
  | .nil => 0
  | .cons a _ rest => maxTotal a + maxTotalC rest

end

/-- Source: `BranchEntry::until_max` = `self.max() - self.account.balance()`. -/
def until_max (a : Account) : ℚ := maxTotal a - balance a


/-- Sum of `until_max` over a children list (total capacity headroom). -/
def untilMaxC (cs : Children) : ℚ := maxTotalC cs - balanceC cs


/-- Source: `BranchEntry::get_flex` — `0` for a fixed inflow or a flex child
already at capacity (`until_max ≤ 0`), the weight otherwise. -/
def get_flex (a : Account) : Inflow → ℚ
  | .Fixed _ => 0
  | .Flex x => if until_max a ≤ 0 then 0 else x


/-- Source: `children.iter().map(BranchEntry::get_flex).sum()`. -/
def totalFlex : Children → ℚ
  | .nil => 0
  | .cons a i rest => get_flex a i + totalFlex rest


/-- Source: `children.len()`. -/
def childCount : Children → ℕ
  | .nil => 0
  | .cons _ _ rest => childCount rest + 1


/-- Source: `BranchEntry::make_fixed_deposit`, parameterised by the deposit
function `d` used for the recursive `self.account.deposit(take)` call;
`take = fixed.min(until_max).min(available)`. -/
def make_fixed_deposit (d : Account → ℚ → Account) (a : Account) (i : Inflow)
    (available : ℚ) : Account × ℚ :=
  match i with
  | .Fixed take0 =>
      let take := min (min take0 (until_max a)) available
      (d a take, available - take)
  | .Flex _ => (a, available)


/-- Source: `BranchEntry::make_flex_deposit`;
`take = (per_flex * flex).min(available).min(until_max)`. -/
def make_flex_deposit (d : Account → ℚ → Account) (a : Account) (i : Inflow)
    (available : ℚ) (per_flex : ℚ) : Account × ℚ :=
  match i with
  | .Flex flex =>
      let take := min (min (per_flex * flex) available) (until_max a)
      (d a take, available - take)
  | .Fixed _ => (a, available)


/-- The fixed pass: source `children.iter_mut().fold(amount, ... make_fixed_deposit ...)`,
returning the updated children and the remaining pool. -/
def foldFixed (d : Account → ℚ → Account) : Children → ℚ → Children × ℚ
  | .nil, amt => (.nil, amt)
  | .cons a i rest, amt =>
      let p := make_fixed_deposit d a i amt
      let q := foldFixed d rest p.2
      (.cons p.1 i q.1, q.2)


/-- One flex sweep: source `children.iter_mut().fold(amount, ... make_flex_deposit ...)`
with `per_flex` fixed for the whole sweep. -/
def foldFlex (d : Account → ℚ → Account) (per_flex : ℚ) :
    Children → ℚ → Children × ℚ
  | .nil, amt => (.nil, amt)
  | .cons a i rest, amt =>
      let p := make_flex_deposit d a i amt per_flex
      let q := foldFlex d per_flex rest p.2
      (.cons p.1 i q.1, q.2)


/-- The flex `while` loop of `Account::deposit`:
`while total_flex != 0.0 && amount > 0.01 { per_flex := amount / total_flex; sweep }`,
bounded by `fuel` iterations. -/
def flex_loop (d : Account → ℚ → Account) : Nat → Children → ℚ → Children × ℚ
  | 0, cs, amt => (cs, amt)
  | fuel + 1, cs, amt =>
      let tf := totalFlex cs
      if tf ≠ 0 ∧ amt > 1/100 then
        let p := foldFlex d (amt / tf) cs amt
        flex_loop d fuel p.1 p.2
      else (cs, amt)


/-- The overflow fallback: source
`children.iter_mut().for_each(|child| child.account.deposit(remaining))`. -/
def fallbackEach (d : Account → ℚ → Account) (share : ℚ) : Children → Children
  | .nil => .nil
  | .cons a i rest => .cons (d a share) i (fallbackEach d share rest)


/-- Source: `Account::deposit`.  A leaf adds the amount to its balance; a
branch runs the fixed pass, then the (fuel-bounded) flex loop, then the
give-up redistribution (`remaining = amount / children.len()`, deposited
into every child when `remaining > 0.01`).  Recursive deposits into
children run at fuel one lower; out of fuel, a branch deposit is the
identity (the source loop would instead keep running). -/
def deposit : Nat → Account → ℚ → Account
  | _, .Leaf n b m, amount => .Leaf n (b + amount) m
  | 0, a, _ => a
  | fuel + 1, .Branch n cs, amount =>
      let p1 := foldFixed (deposit fuel) cs amount
      let p2 := flex_loop (deposit fuel) (fuel + 1) p1.1 p1.2
      let remaining := p2.2 / (childCount p2.1 : ℚ)
      .Branch n (if remaining > 1/100 then fallbackEach (deposit fuel) remaining p2.1 else p2.1)


/-- Source: `Account::withdraw` — unconditional subtraction on a leaf,
error on a branch. -/
def withdraw : Account → ℚ → Except String Account
  | .Leaf n b m, amount => .ok (.Leaf n (b - amount) m)
  | .Branch _ _, _ => .error "Cannot withdraw from a branch node"


mutual

/-- Source: `Account::find_child` — check own name, then scan children in
stored order, testing each child's name before recursing into it. -/
def find_child (a : Account) (name : String) : Option Account :=
  if nameOf a = name then some a else
    match a with
    | .Leaf _ _ _ => none
    | .Branch _ cs => findChildC cs name

/-- Children part of `find_child`. -/
def findChildC : Children → String → Option Account
  | .nil, _ => none
  | .cons c _ rest, name =>
      if nameOf c = name then some c
      else
        match find_child c name with
        | some r => some r
        | none => findChildC rest name

end

/-- Sum of `until_max` over the entries of a children list. -/
def untilMaxSumC : Children → ℚ
  | .nil => 0
  | .cons a _ rest => until_max a + untilMaxSumC rest


/-- Number of Flex children still strictly under capacity (the set whose
cardinality the spec's termination argument claims shrinks each iteration). -/
def underCapFlexCount : Children → ℕ
  | .nil => 0
  | .cons a i rest =>
      (match i with
       | .Flex _ => if 0 < until_max a then 1 else 0
       | .Fixed _ => 0) + underCapFlexCount rest


/-- Every child is a Leaf with a positive Flex weight and balance ≤ max. -/
inductive GoodFlex : Children → Prop
  | nil : GoodFlex .nil
  | cons (n : String) (b m w : ℚ) (rest : Children) :
      0 < w → b ≤ m → GoodFlex rest →
      GoodFlex (.cons (.Leaf n b m) (.Flex w) rest)


/-- Per-child skeleton (name, capacity, inflow), used to state that a pass
changes only balances. -/
def skelC : Children → List (String × ℚ × Inflow)
  | .nil => []
  | .cons a i rest => (nameOf a, maxTotal a, i) :: skelC rest


mutual

/-- Pre-order listing of the tree's nodes: each node before its subtree,
children in stored sibling order. -/
def preorder : Account → List Account
  | .Leaf n b m => [.Leaf n b m]
  | .Branch n cs => .Branch n cs :: preorderC cs

/-- Pre-order listing of a children list's subtrees, in stored order. -/
def preorderC : Children → List Account
  | .nil => []
  | .cons a _ rest => preorder a ++ preorderC rest

end

/-- Names of all nodes of the tree, in pre-order. -/
def names (a : Account) : List String := (preorder a).map nameOf


/-- Names of all nodes under a children list, in pre-order. -/
def namesC (cs : Children) : List String := (preorderC cs).map nameOf


mutual

/-- Apply `f` at the node `find_child` locates (identical traversal order),
splicing the transformed node back into the tree; `none` when the name is
absent; an error from `f` is surfaced unchanged. -/
def update_at (f : Account → Except String Account) (a : Account)
    (name : String) : Option (Except String Account) :=
  if nameOf a = name then some (f a) else
    match a with
    | .Leaf _ _ _ => none
    | .Branch n cs =>
        match updateAtC f cs name with
        | none => none
        | some (.error e) => some (.error e)
        | some (.ok cs2) => some (.ok (.Branch n cs2))

/-- Children part of `update_at`, scanning in stored order and testing each
child's name before recursing into it, exactly like `findChildC`. -/
def updateAtC (f : Account → Except String Account) :
    Children → String → Option (Except String Children)
  | .nil, _ => none
  | .cons c i rest, name =>
      if nameOf c = name then
        match f c with
        | .error e => some (.error e)
        | .ok c2 => some (.ok (.cons c2 i rest))
      else
        match update_at f c name with
        | some (.error e) => some (.error e)
        | some (.ok c2) => some (.ok (.cons c2 i rest))
        | none =>
            match updateAtC f rest name with
            | none => none
            | some (.error e) => some (.error e)
            | some (.ok rest2) => some (.ok (.cons c i rest2))

end

/-- The Withdraw arm of `Account::apply`: resolve the name (an absent name
is an error leaving the tree untouched), then withdraw there; a withdraw
error also leaves the tree untouched. -/
def applyWithdraw (root : Account) (account : String) (amount : ℚ) :
    Account × Option String :=
  match update_at (fun a => withdraw a amount) root account with
  | none => (root, some ("Could not find parent account " ++ account
      ++ " to withdraw from"))
  | some (.error e) => (root, some e)
  | some (.ok r) => (r, none)


/-- The Deposit arm of `Account::apply`: deposit at the named account, or at
the root when no account is named; deposit itself cannot fail. -/
def applyDeposit (fuel : Nat) (root : Account) (account : Option String)
    (amount : ℚ) : Account × Option String :=
  match account with
  | none => (deposit fuel root amount, none)
  | some nm =>
      match update_at (fun a => .ok (deposit fuel a amount)) root nm with
      | none => (root, some ("Could not find parent account " ++ nm
          ++ " to deposit to"))
      | some (.error e) => (root, some e)
      | some (.ok r) => (r, none)


/-- The Transfer arm of `Account::apply`: a Withdraw then a Deposit as two
independent, non-atomic steps (source lines 69-72); a Withdraw failure
aborts, but a Deposit failure leaves the withdrawal already applied. -/
def applyTransfer (fuel : Nat) (root : Account) (src : String)
    (dst : Option String) (amount : ℚ) : Account × Option String :=
  match applyWithdraw root src amount with
  | (r, some e) => (r, some e)
  | (r, none) => applyDeposit fuel r dst amount


/-! ## Theorems -/

/-- Mutual structural induction over `Account` and `Children`. -/
theorem treeInduction (P : Account → Prop) (Q : Children → Prop)
    (hleaf : ∀ n b m, P (.Leaf n b m))
    (hbranch : ∀ n cs, Q cs → P (.Branch n cs))
    (hnil : Q .nil)
    (hcons : ∀ a i rest, P a → Q rest → Q (.cons a i rest)) :
    (∀ a, P a) ∧ (∀ cs, Q cs) :=
  ⟨fun a => @Account.rec P Q hleaf hbranch hnil hcons a,
   fun cs => @Children.rec P Q hleaf hbranch hnil hcons cs⟩


/-- Structural induction over `Children` alone (no recursion into accounts). -/
theorem childrenInduction {Q : Children → Prop} (nil : Q .nil)
    (cons : ∀ a i rest, Q rest → Q (.cons a i rest)) : ∀ cs, Q cs :=
  (treeInduction (fun _ => True) Q (fun _ _ _ => trivial) (fun _ _ _ => trivial)
    nil (fun a i rest _ h => cons a i rest h)).2


@[simp] theorem balance_leaf (n : String) (b m : ℚ) : balance (.Leaf n b m) = b := rfl


@[simp] theorem balance_branch (n : String) (cs : Children) :
    balance (.Branch n cs) = balanceC cs := by
  simp [balance]


@[simp] theorem balanceC_nil : balanceC .nil = 0 := rfl


@[simp] theorem balanceC_cons (a : Account) (i : Inflow) (rest : Children) :
    balanceC (.cons a i rest) = balance a + balanceC rest := by
  simp [balanceC]


@[simp] theorem maxTotal_leaf (n : String) (b m : ℚ) : maxTotal (.Leaf n b m) = m := rfl


@[simp] theorem maxTotal_branch (n : String) (cs : Children) :
    maxTotal (.Branch n cs) = maxTotalC cs := by
  simp [maxTotal]


@[simp] theorem maxTotalC_nil : maxTotalC .nil = 0 := rfl


@[simp] theorem maxTotalC_cons (a : Account) (i : Inflow) (rest : Children) :
    maxTotalC (.cons a i rest) = maxTotal a + maxTotalC rest := by
  simp [maxTotalC]


theorem until_max_leaf (n : String) (b m : ℚ) : until_max (.Leaf n b m) = m - b := rfl


theorem deposit_leaf (fuel : Nat) (n : String) (b m amt : ℚ) :
    deposit fuel (.Leaf n b m) amt = .Leaf n (b + amt) m := by
  cases fuel <;> simp [deposit]


/-- Depositing into a branch with no children is the identity (for any fuel):
the fixed pass folds over nothing, the flex loop sees `total_flex = 0`, and
the fallback divides by the zero child count (`x / 0 = 0` in `ℚ`; in the
source, an infinite or NaN `remaining` is then spread over no children)
and in either reading iterates over no children. -/
theorem deposit_branch_nil (fuel : Nat) (name : String) (amt : ℚ) :
    deposit fuel (.Branch name .nil) amt = .Branch name .nil := by
  cases fuel with
  | zero => rfl
  | succ k =>
      simp [deposit, foldFixed, flex_loop, totalFlex, childCount]


theorem untilMaxSumC_eq (cs : Children) : untilMaxSumC cs = untilMaxC cs := by
  induction cs using childrenInduction with
  | nil => simp [untilMaxSumC, untilMaxC]
  | cons a i rest ih => simp [untilMaxSumC, untilMaxC, until_max] at *; linarith


/-- C8: for every Branch node, its `until_max` (aggregate max minus aggregate
balance) equals the sum of its children's `until_max` values. -/
theorem C8_branch_until_max_eq_sum (name : String) (cs : Children) :
    until_max (.Branch name cs) = untilMaxSumC cs := by
  simp [until_max, untilMaxSumC_eq, untilMaxC]


/-- C2 counterexample: depositing 5 into a childless branch (the freshly
constructed root) does not increase its aggregate balance by 5 — the whole
amount is discarded, so deposit does not always consume the entire amount. -/
theorem C2_counterexample :
    balance (deposit 3 new_root 5) ≠ balance new_root + 5 := by
  rw [new_root, deposit_branch_nil]
  norm_num


/-- C2 (amended): `deposit` always returns normally (it is a total function
of the tree and the amount), and on a Leaf it increases the balance by
exactly the amount; but on a Branch the amount need not be fully placed —
in particular a childless Branch leaves every balance unchanged and the
whole amount is discarded. -/
theorem C2_deposit_totality_amended :
    (∀ fuel n b m amt, balance (deposit fuel (.Leaf n b m) amt)
        = balance (.Leaf n b m) + amt)
    ∧ (∀ fuel name amt, deposit fuel (.Branch name .nil) amt = .Branch name .nil) := by
  constructor
  · intro fuel n b m amt
    rw [deposit_leaf]
    simp
  · intro fuel name amt
    exact deposit_branch_nil fuel name amt


/-- C9: depositing a strictly positive amount into a Branch with no children
(such as the freshly constructed root) returns normally but leaves every
balance unchanged: the fixed and flex passes place nothing and the fallback
iterates over no children, silently discarding the whole amount. -/
theorem C9_deposit_empty_branch_discards (fuel : Nat) (name : String) (amt : ℚ)
    (hpos : 0 < amt) :
    deposit fuel (.Branch name .nil) amt = .Branch name .nil :=
  deposit_branch_nil fuel name amt


theorem C9_witness :
    0 < (5 : ℚ) ∧ deposit 3 (.Branch "root" .nil) 5 = .Branch "root" .nil :=
  ⟨by norm_num, C9_deposit_empty_branch_discards 3 "root" 5 (by norm_num)⟩


/-- C7 counterexample: a Flex child at its max in the sense of the claim
(`until_max ≤ 0`, here strictly over its max) does not receive 0 in the
flex pass: `make_flex_deposit` is applied to every Flex child and its take
`min (min (per_flex * w) available) until_max` equals the negative
`until_max`, so the child's balance changes (5 becomes 2). -/
theorem C7_counterexample :
    until_max (Account.Leaf "a" 5 2) ≤ 0
    ∧ make_flex_deposit (deposit 3) (.Leaf "a" 5 2) (.Flex 1) 10 1 = (.Leaf "a" 2 2, 13)
    ∧ balance (Account.Leaf "a" 2 2) ≠ balance (Account.Leaf "a" 5 2) := by
  refine ⟨by norm_num [until_max_leaf], ?_, by norm_num⟩
  simp only [make_flex_deposit, until_max_leaf, deposit_leaf]
  norm_num [min_def]


/-- C7 (amended): in the flex pass, given a non-negative per-unit share and
a non-negative pool, a Leaf Flex child at exactly its max receives 0 and its
balance is unchanged; a Leaf Flex child strictly over its max instead
receives the negative `until_max`, bringing its balance back to exactly its
max and increasing the pool. -/
theorem C7_flex_at_capacity_amended (f : Nat) (n : String) (b m w avail pf : ℚ)
    (hshare : 0 ≤ pf * w) (hpool : 0 ≤ avail) :
    (b = m → make_flex_deposit (deposit f) (.Leaf n b m) (.Flex w) avail pf
        = (.Leaf n b m, avail))
    ∧ (m < b → make_flex_deposit (deposit f) (.Leaf n b m) (.Flex w) avail pf
        = (.Leaf n m m, avail - (m - b)) ∧ avail < avail - (m - b)) := by
  constructor
  · intro hbm
    simp only [make_flex_deposit, until_max_leaf, deposit_leaf, hbm]
    have h1 : m - m = 0 := by ring
    have h2 : 0 ≤ min (pf * w) avail := le_min hshare hpool
    rw [h1, min_eq_right h2]
    norm_num
  · intro hmb
    simp only [make_flex_deposit, until_max_leaf, deposit_leaf]
    have h2 : m - b ≤ min (pf * w) avail := by
      have : m - b ≤ 0 := by linarith
      exact le_trans this (le_min hshare hpool)
    rw [min_eq_right h2]
    refine ⟨?_, by linarith⟩
    have : b + (m - b) = m := by ring
    rw [this]


theorem C7_witness :
    make_flex_deposit (deposit 3) (.Leaf "a" 2 2) (.Flex 1) 10 1 = (.Leaf "a" 2 2, 10)
    ∧ make_flex_deposit (deposit 3) (.Leaf "b" 5 2) (.Flex 1) 10 1 = (.Leaf "b" 2 2, 13) := by
  have h1 := (C7_flex_at_capacity_amended 3 "a" 2 2 1 10 1 (by norm_num) (by norm_num)).1 rfl
  have h2 := (C7_flex_at_capacity_amended 3 "b" 5 2 1 10 1 (by norm_num) (by norm_num)).2
    (by norm_num)
  refine ⟨h1, ?_⟩
  rw [h2.1]
  norm_num


/-- C10 counterexample: a Fixed-inflow child whose balance strictly exceeds
its max does receive the negative take `until_max` and the pool grows from
10 to 13, but the child's balance does not decrease: here the child is a
Branch whose own deposit discards the negative amount (its flex pool is not
above the 0.01 threshold and the fallback share is negative), so its
balance stays 5. -/
theorem C10_counterexample :
    until_max (Account.Branch "b" (.cons (.Leaf "g" 5 2) (.Flex 1) .nil)) < 0
    ∧ make_fixed_deposit (deposit 3)
        (.Branch "b" (.cons (.Leaf "g" 5 2) (.Flex 1) .nil)) (.Fixed 0) 10
      = (.Branch "b" (.cons (.Leaf "g" 5 2) (.Flex 1) .nil), 13)
    ∧ balance (Account.Branch "b" (.cons (.Leaf "g" 5 2) (.Flex 1) .nil)) = 5 := by
  refine ⟨by norm_num [until_max, maxTotal, maxTotalC, balance, balanceC], ?_, by norm_num⟩
  norm_num [until_max, maxTotal, maxTotalC, balance, balanceC, min_def, deposit, foldFixed,
    foldFlex, fallbackEach, make_fixed_deposit, make_flex_deposit, flex_loop, totalFlex,
    get_flex, childCount]


/-- C10 (amended): if a Fixed-inflow child has `until_max < 0` when the
fixed pass reaches it with a non-negative fixed amount and a non-negative
pool, the pass deposits the negative take `until_max` into the child and the
remaining pool rises strictly above what was available; a Leaf child's
balance then indeed drops to exactly its max, but a Branch child may ignore
the negative deposit, leaving its balance unchanged. -/
theorem C10_overfull_fixed_child_amended (f : Nat) (a : Account) (k avail : ℚ)
    (hum : until_max a < 0) (hk : 0 ≤ k) (hav : 0 ≤ avail) :
    make_fixed_deposit (deposit f) a (.Fixed k) avail
      = (deposit f a (until_max a), avail - until_max a)
    ∧ avail < avail - until_max a
    ∧ (∀ n b m, a = .Leaf n b m → deposit f a (until_max a) = .Leaf n m m) := by
  have h1 : min k (until_max a) = until_max a := min_eq_right (by linarith)
  have h2 : min (until_max a) avail = until_max a := min_eq_left (by linarith)
  refine ⟨?_, by linarith, ?_⟩
  · simp only [make_fixed_deposit, h1, h2]
  · intro n b m ha
    subst ha
    rw [until_max_leaf, deposit_leaf]
    have : b + (m - b) = m := by ring
    rw [this]


theorem C10_witness :
    make_fixed_deposit (deposit 3) (.Leaf "g" 5 2) (.Fixed 0) 10 = (.Leaf "g" 2 2, 13) := by
  have h := C10_overfull_fixed_child_amended 3 (.Leaf "g" 5 2) 0 10
    (by norm_num [until_max_leaf]) (by norm_num) (by norm_num)
  rw [h.1, h.2.2 "g" 5 2 rfl]
  norm_num [until_max_leaf]


/-- C1 counterexample: a Branch with children `a` (Fixed 5, max 1) and `b`
(Fixed 0, max 100), both at balance 0, has headroom 101 ≥ the deposited
amount 10 ≥ 0, yet after `deposit` child `a` ends at balance 11/2, strictly
above its max 1 (the give-up redistribution ignores capacity). -/
theorem C1_counterexample :
    0 ≤ (10 : ℚ)
    ∧ (10 : ℚ) ≤ untilMaxC
        (.cons (.Leaf "a" 0 1) (.Fixed 5) (.cons (.Leaf "b" 0 100) (.Fixed 0) .nil))
    ∧ deposit 3 (.Branch "r"
        (.cons (.Leaf "a" 0 1) (.Fixed 5) (.cons (.Leaf "b" 0 100) (.Fixed 0) .nil))) 10
      = .Branch "r"
        (.cons (.Leaf "a" (11/2) 1) (.Fixed 5) (.cons (.Leaf "b" (9/2) 100) (.Fixed 0) .nil))
    ∧ (1 : ℚ) < 11/2 := by
  refine ⟨by norm_num, by norm_num [untilMaxC, maxTotalC, balanceC, maxTotal, balance], ?_,
    by norm_num⟩
  simp [deposit, foldFixed, foldFlex, flex_loop, fallbackEach, make_fixed_deposit,
    make_flex_deposit, until_max, balance, balanceC, maxTotal, maxTotalC, totalFlex,
    get_flex, childCount]
  norm_num


/-- C3 counterexample: one full iteration of the flex loop on a pool of 300
with a single Flex child `b` (a Branch holding a Fixed(0) leaf of max 100
and a childless Branch of weight 1) neither saturates any Flex child (the
under-capacity count stays 1: `b` absorbs only half of its take because its
own fallback splits the take with the childless grandchild, which discards
it) nor brings the pool to or below the 0.01 tolerance (it goes from 300 to
200), refuting the claimed per-iteration progress. -/
theorem C3_counterexample :
    totalFlex (.cons (.Branch "b" (.cons (.Leaf "g1" 0 100) (.Fixed 0)
        (.cons (.Branch "g2" .nil) (.Flex 1) .nil))) (.Flex 1) .nil) ≠ 0
    ∧ (300 : ℚ) > 1/100
    ∧ foldFlex (deposit 9)
        (300 / totalFlex (.cons (.Branch "b" (.cons (.Leaf "g1" 0 100) (.Fixed 0)
          (.cons (.Branch "g2" .nil) (.Flex 1) .nil))) (.Flex 1) .nil))
        (.cons (.Branch "b" (.cons (.Leaf "g1" 0 100) (.Fixed 0)
          (.cons (.Branch "g2" .nil) (.Flex 1) .nil))) (.Flex 1) .nil) 300
      = (.cons (.Branch "b" (.cons (.Leaf "g1" 50 100) (.Fixed 0)
          (.cons (.Branch "g2" .nil) (.Flex 1) .nil))) (.Flex 1) .nil, 200)
    ∧ underCapFlexCount (.cons (.Branch "b" (.cons (.Leaf "g1" 50 100) (.Fixed 0)
          (.cons (.Branch "g2" .nil) (.Flex 1) .nil))) (.Flex 1) .nil)
      = underCapFlexCount (.cons (.Branch "b" (.cons (.Leaf "g1" 0 100) (.Fixed 0)
          (.cons (.Branch "g2" .nil) (.Flex 1) .nil))) (.Flex 1) .nil)
    ∧ (200 : ℚ) > 1/100 := by
  refine ⟨?_, by norm_num, ?_, ?_, by norm_num⟩
  · norm_num [totalFlex, get_flex, until_max, maxTotal, maxTotalC, balance, balanceC]
  · simp [deposit, foldFixed, foldFlex, flex_loop, fallbackEach, make_fixed_deposit,
      make_flex_deposit, until_max, balance, balanceC, maxTotal, maxTotalC, totalFlex,
      get_flex, childCount]
    norm_num
  · norm_num [underCapFlexCount, until_max, maxTotal, maxTotalC, balance, balanceC]


theorem untilMaxC_cons (a : Account) (i : Inflow) (rest : Children) :
    untilMaxC (.cons a i rest) = until_max a + untilMaxC rest := by
  simp [untilMaxC, until_max]
  ring


theorem totalFlex_nonneg {cs : Children} (h : GoodFlex cs) : 0 ≤ totalFlex cs := by
  induction h with
  | nil => simp [totalFlex]
  | cons n b m w rest hw hbm hrest ih =>
      simp only [totalFlex, get_flex]
      split
      · linarith
      · linarith


/-- On an all-Flex children list the fixed pass is the identity. -/
theorem goodflex_foldFixed (d : Account → ℚ → Account) {cs : Children}
    (h : GoodFlex cs) : ∀ amt, foldFixed d cs amt = (cs, amt) := by
  induction h with
  | nil => intro amt; simp [foldFixed]
  | cons n b m w rest hw hbm hrest ih =>
      intro amt
      simp [foldFixed, make_fixed_deposit, ih]


/-- If no under-capacity Flex weight is left in a good list, every child is
exactly at its max, so the aggregate headroom is zero. -/
theorem goodflex_totalFlex_zero {cs : Children} (h : GoodFlex cs)
    (h0 : totalFlex cs = 0) : untilMaxC cs = 0 := by
  induction h with
  | nil => simp [untilMaxC]
  | cons n b m w rest hw hbm hrest ih =>
      rw [untilMaxC_cons]
      simp only [totalFlex, get_flex, until_max_leaf] at h0 ⊢
      by_cases hsat : m - b ≤ 0
      · rw [if_pos hsat] at h0
        have h1 : totalFlex rest = 0 := by linarith
        have h2 : m - b = 0 := by linarith
        rw [h2, ih h1]
        norm_num
      · rw [if_neg hsat] at h0
        have := totalFlex_nonneg hrest
        linarith


/-- One flex sweep over a good children list, with per-unit share `pf > 0`
and a pool covering every under-capacity child's nominal share
(`pf * totalFlex cs ≤ amt`): the list stays good with unchanged skeleton,
money is conserved between balances and pool, the pool stays non-negative,
the number of under-capacity children cannot grow, and if it does not
shrink then every under-capacity child took exactly its nominal share, so
the pool dropped by exactly `pf * totalFlex cs`. -/
theorem foldFlex_good (d : Account → ℚ → Account)
    (hd : ∀ n b m x, d (.Leaf n b m) x = .Leaf n (b + x) m)
    (pf : ℚ) (hpf : 0 < pf) {cs : Children} (h : GoodFlex cs) :
    ∀ amt, pf * totalFlex cs ≤ amt →
      GoodFlex (foldFlex d pf cs amt).1
      ∧ balanceC (foldFlex d pf cs amt).1 + (foldFlex d pf cs amt).2
          = balanceC cs + amt
      ∧ skelC (foldFlex d pf cs amt).1 = skelC cs
      ∧ maxTotalC (foldFlex d pf cs amt).1 = maxTotalC cs
      ∧ childCount (foldFlex d pf cs amt).1 = childCount cs
      ∧ 0 ≤ (foldFlex d pf cs amt).2
      ∧ underCapFlexCount (foldFlex d pf cs amt).1 ≤ underCapFlexCount cs
      ∧ (underCapFlexCount (foldFlex d pf cs amt).1 = underCapFlexCount cs →
          (foldFlex d pf cs amt).2 = amt - pf * totalFlex cs) := by
  induction h with
  | nil =>
      intro amt hle
      simp only [totalFlex] at hle
      simp [foldFlex, GoodFlex.nil, totalFlex]
      nlinarith
  | cons n b m w rest hw hbm hrest ih =>
      intro amt hle
      have htfr : 0 ≤ totalFlex rest := totalFlex_nonneg hrest
      have htfr2 : 0 ≤ pf * totalFlex rest := mul_nonneg hpf.le htfr
      have hpw : 0 < pf * w := mul_pos hpf hw
      have hstep : foldFlex d pf (.cons (.Leaf n b m) (.Flex w) rest) amt
          = (.cons (.Leaf n (b + min (min (pf * w) amt) (m - b)) m) (.Flex w)
              (foldFlex d pf rest (amt - min (min (pf * w) amt) (m - b))).1,
             (foldFlex d pf rest (amt - min (min (pf * w) amt) (m - b))).2) := by
        simp only [foldFlex, make_flex_deposit, until_max_leaf, hd]
      by_cases hsat : m - b ≤ 0
      · -- head already at capacity: it has m = b and takes 0
        have hmb : m - b = 0 := by linarith
        have htf : totalFlex (.cons (.Leaf n b m) (.Flex w) rest) = totalFlex rest := by
          simp [totalFlex, get_flex, until_max_leaf, hsat]
        rw [htf] at hle
        have hamt0 : 0 ≤ amt := le_trans htfr2 hle
        have ht0 : min (min (pf * w) amt) (m - b) = 0 := by
          rw [hmb]
          exact min_eq_right (le_min hpw.le hamt0)
        rw [ht0] at hstep
        have hamt : amt - 0 = amt := by ring
        rw [hamt] at hstep
        obtain ⟨g1, g2, g3, g4, g5, g6, g7, g8⟩ := ih amt hle
        rw [hstep]
        have hb0 : b + 0 = b := by ring
        rw [hb0]
        refine ⟨GoodFlex.cons n b m w _ hw hbm g1, ?_, ?_, ?_, ?_, g6, ?_, ?_⟩
        · simp only [balanceC_cons, balance_leaf]
          linarith
        · simp [skelC, nameOf, g3]
        · simp only [maxTotalC_cons, maxTotal_leaf, g4]
        · simp only [childCount, g5]
        · simp only [underCapFlexCount]
          omega
        · intro hcnt
          simp only [underCapFlexCount] at hcnt
          have : underCapFlexCount (foldFlex d pf rest amt).1 = underCapFlexCount rest := by
            omega
          rw [htf, g8 this]
      · -- head under capacity
        push_neg at hsat
        have htf : totalFlex (.cons (.Leaf n b m) (.Flex w) rest)
            = w + totalFlex rest := by
          simp [totalFlex, get_flex, until_max_leaf, not_le.mpr hsat]
        rw [htf, mul_add] at hle
        have h1 : pf * w ≤ amt := by linarith
        have hmin1 : min (pf * w) amt = pf * w := min_eq_left h1
        rw [hmin1] at hstep
        by_cases hb1 : m - b ≤ pf * w
        · -- head saturates: takes its full headroom
          have ht : min (pf * w) (m - b) = m - b := min_eq_right hb1
          rw [ht] at hstep
          have hle2 : pf * totalFlex rest ≤ amt - (m - b) := by linarith
          obtain ⟨g1, g2, g3, g4, g5, g6, g7, g8⟩ := ih (amt - (m - b)) hle2
          rw [hstep]
          have hbm2 : b + (m - b) = m := by ring
          rw [hbm2]
          refine ⟨GoodFlex.cons n m m w _ hw le_rfl g1, ?_, ?_, ?_, ?_, g6, ?_, ?_⟩
          · simp only [balanceC_cons, balance_leaf]
            linarith
          · simp [skelC, nameOf, g3]
          · simp only [maxTotalC_cons, maxTotal_leaf, g4]
          · simp only [childCount, g5]
          · simp only [underCapFlexCount, until_max_leaf]
            rw [if_neg (by linarith : ¬ 0 < m - m), if_pos hsat]
            omega
          · intro hcnt
            exfalso
            simp only [underCapFlexCount, until_max_leaf] at hcnt
            rw [if_neg (by linarith : ¬ 0 < m - m), if_pos hsat] at hcnt
            omega
        · -- head takes exactly its nominal share and stays under capacity
          push_neg at hb1
          have ht : min (pf * w) (m - b) = pf * w := min_eq_left hb1.le
          rw [ht] at hstep
          have hle2 : pf * totalFlex rest ≤ amt - pf * w := by linarith
          obtain ⟨g1, g2, g3, g4, g5, g6, g7, g8⟩ := ih (amt - pf * w) hle2
          rw [hstep]
          have hblem : b + pf * w ≤ m := by linarith
          have hbu : 0 < m - (b + pf * w) := by linarith
          refine ⟨GoodFlex.cons n (b + pf * w) m w _ hw hblem g1, ?_, ?_, ?_, ?_, g6, ?_, ?_⟩
          · simp only [balanceC_cons, balance_leaf]
            linarith
          · simp [skelC, nameOf, g3]
          · simp only [maxTotalC_cons, maxTotal_leaf, g4]
          · simp only [childCount, g5]
          · simp only [underCapFlexCount, until_max_leaf, if_pos hbu, if_pos hsat]
            omega
          · intro hcnt
            simp only [underCapFlexCount, until_max_leaf, if_pos hbu, if_pos hsat] at hcnt
            have hcnt2 : underCapFlexCount (foldFlex d pf rest (amt - pf * w)).1
                = underCapFlexCount rest := by omega
            rw [htf, g8 hcnt2, mul_add]
            ring


/-- When the pool is at or below the tolerance the loop exits immediately. -/
theorem flex_loop_done (d : Account → ℚ → Account) (fuel : Nat) (cs : Children)
    (amt : ℚ) (hle : amt ≤ 1/100) : flex_loop d fuel cs amt = (cs, amt) := by
  cases fuel with
  | zero => rfl
  | succ g =>
      simp only [flex_loop]
      rw [if_neg (show ¬(totalFlex cs ≠ 0 ∧ amt > 1/100) from
        fun hcon => absurd hcon.2 (not_lt.2 hle))]


/-- The flex loop on a good children list: balances plus pool are conserved,
the skeleton is unchanged, the list stays good, the pool stays non-negative,
and with fuel exceeding the number of under-capacity children the loop exits
with its condition false — either no under-capacity flex weight remains or
the pool is at or below the 0.01 tolerance.  Each iteration either saturates
at least one more child or takes the whole pool. -/
theorem flex_loop_good (d : Account → ℚ → Account)
    (hd : ∀ n b m x, d (.Leaf n b m) x = .Leaf n (b + x) m) :
    ∀ fuel cs amt, GoodFlex cs → 0 ≤ amt → underCapFlexCount cs < fuel →
      GoodFlex (flex_loop d fuel cs amt).1
      ∧ balanceC (flex_loop d fuel cs amt).1 + (flex_loop d fuel cs amt).2
          = balanceC cs + amt
      ∧ skelC (flex_loop d fuel cs amt).1 = skelC cs
      ∧ maxTotalC (flex_loop d fuel cs amt).1 = maxTotalC cs
      ∧ childCount (flex_loop d fuel cs amt).1 = childCount cs
      ∧ 0 ≤ (flex_loop d fuel cs amt).2
      ∧ (totalFlex (flex_loop d fuel cs amt).1 = 0
          ∨ (flex_loop d fuel cs amt).2 ≤ 1/100) := by
  intro fuel
  induction fuel with
  | zero => intro cs amt _ _ hcount; exact absurd hcount (Nat.not_lt_zero _)
  | succ g ihf =>
      intro cs amt hgood hamt hcount
      by_cases hcond : totalFlex cs ≠ 0 ∧ amt > 1/100
      · have htf0 : 0 < totalFlex cs :=
          lt_of_le_of_ne (totalFlex_nonneg hgood) (Ne.symm hcond.1)
        have hpf : 0 < amt / totalFlex cs := div_pos (by linarith [hcond.2]) htf0
        have hmul : amt / totalFlex cs * totalFlex cs = amt := div_mul_cancel₀ amt hcond.1
        obtain ⟨f1, f2, f3, f4, f5, f6, f7, f8⟩ :=
          foldFlex_good d hd (amt / totalFlex cs) hpf hgood amt (le_of_eq hmul)
        have hstep : flex_loop d (g + 1) cs amt
            = flex_loop d g (foldFlex d (amt / totalFlex cs) cs amt).1
                (foldFlex d (amt / totalFlex cs) cs amt).2 := by
          simp only [flex_loop]
          rw [if_pos hcond]
        rcases lt_or_eq_of_le f7 with hlt | heqc
        · have hcount2 :
              underCapFlexCount (foldFlex d (amt / totalFlex cs) cs amt).1 < g := by
            omega
          obtain ⟨l1, l2, l3, l4, l5, l6, l7⟩ := ihf _ _ f1 f6 hcount2
          rw [hstep]
          exact ⟨l1, by linarith, by rw [l3, f3], by rw [l4, f4], by rw [l5, f5], l6, l7⟩
        · have hz : (foldFlex d (amt / totalFlex cs) cs amt).2 = 0 := by
            rw [f8 heqc, hmul]
            ring
          rw [hstep, hz, flex_loop_done d g _ 0 (by norm_num)]
          exact ⟨f1, by linarith, f3, f4, f5, le_refl 0, Or.inr (by norm_num)⟩
      · have hstep : flex_loop d (g + 1) cs amt = (cs, amt) := by
          simp only [flex_loop]
          rw [if_neg hcond]
        rw [hstep]
        refine ⟨hgood, rfl, rfl, rfl, rfl, hamt, ?_⟩
        by_cases htf : totalFlex cs = 0
        · exact Or.inl htf
        · push_neg at hcond
          exact Or.inr (hcond htf)


/-- C1 (amended): depositing an amount `amt` with `0 ≤ amt ≤` total headroom
into a Branch all of whose children are Flex-weighted leaves (positive
weights, balances at or below their maxes) increases the branch's aggregate
balance by exactly `amt` up to the 0.01 tolerance, and leaves every child's
balance at or below its (unchanged) max.  Restricting to Flex leaves is
forced by the counterexample: with Fixed children the give-up
redistribution pushes children over their maxes. -/
theorem C1_deposit_conservation_amended (fuel : Nat) (name : String)
    (cs : Children) (amt : ℚ) (hgood : GoodFlex cs) (hamt : 0 ≤ amt)
    (hroom : amt ≤ untilMaxC cs) (hfuel : underCapFlexCount cs < fuel) :
    ∃ cs2, deposit fuel (.Branch name cs) amt = .Branch name cs2
      ∧ GoodFlex cs2
      ∧ skelC cs2 = skelC cs
      ∧ |balanceC cs2 - (balanceC cs + amt)| ≤ 1/100 := by
  cases fuel with
  | zero => exact absurd hfuel (Nat.not_lt_zero _)
  | succ g =>
      obtain ⟨l1, l2, l3, l4, l5, l6, l7⟩ :=
        flex_loop_good (deposit g) (deposit_leaf g) (g + 1) cs amt hgood hamt hfuel
      have hroom2 : amt ≤ maxTotalC cs - balanceC cs := by
        simpa [untilMaxC] using hroom
      have hamt2 : (flex_loop (deposit g) (g + 1) cs amt).2 ≤ 1/100 := by
        rcases l7 with htf | hle2
        · have hu := goodflex_totalFlex_zero l1 htf
          simp only [untilMaxC] at hu
          linarith
        · exact hle2
      have hnotgt : ¬((flex_loop (deposit g) (g + 1) cs amt).2
          / ((childCount (flex_loop (deposit g) (g + 1) cs amt).1 : ℕ) : ℚ) > 1/100) := by
        rcases Nat.eq_zero_or_pos (childCount (flex_loop (deposit g) (g + 1) cs amt).1)
          with hc | hc
        · rw [hc]
          norm_num
        · have hone : (1 : ℚ) ≤ ((childCount (flex_loop (deposit g) (g + 1) cs amt).1 : ℕ) : ℚ) := by
            exact_mod_cast hc
          have := div_le_self l6 hone
          linarith
      have hfix := goodflex_foldFixed (deposit g) hgood amt
      have hdep : deposit (g + 1) (.Branch name cs) amt
          = .Branch name (flex_loop (deposit g) (g + 1) cs amt).1 := by
        simp only [deposit, hfix]
        rw [if_neg hnotgt]
      exact ⟨(flex_loop (deposit g) (g + 1) cs amt).1, hdep, l1, l3,
        abs_le.2 ⟨by linarith, by linarith⟩⟩


theorem C1_witness :
    ∃ cs2, deposit 3 (.Branch "r" (.cons (.Leaf "a" 0 10) (.Flex 1)
        (.cons (.Leaf "b" 0 30) (.Flex 3) .nil))) 40 = .Branch "r" cs2
      ∧ GoodFlex cs2
      ∧ skelC cs2 = skelC (.cons (.Leaf "a" 0 10) (.Flex 1)
          (.cons (.Leaf "b" 0 30) (.Flex 3) .nil))
      ∧ |balanceC cs2 - (balanceC (.cons (.Leaf "a" 0 10) (.Flex 1)
          (.cons (.Leaf "b" 0 30) (.Flex 3) .nil)) + 40)| ≤ 1/100 :=
  C1_deposit_conservation_amended 3 "r" _ 40
    (GoodFlex.cons "a" 0 10 1 _ (by norm_num) (by norm_num)
      (GoodFlex.cons "b" 0 30 3 _ (by norm_num) (by norm_num) GoodFlex.nil))
    (by norm_num)
    (by norm_num [untilMaxC, maxTotalC, balanceC, maxTotal, balance])
    (by norm_num [underCapFlexCount, until_max, maxTotal, maxTotalC, balance, balanceC])


/-- C3 (amended): for a Branch whose children are all Flex-weighted leaves
(positive weights, balances at or below max) the flex pass terminates: with
fuel exceeding the number of under-capacity children, the loop ends in a
state where the source loop's condition `total_flex != 0 && amount > 0.01`
is false, i.e. the unbounded source loop exits, because every iteration
either saturates at least one more child or consumes the whole pool.  The
counterexample shows the claimed per-iteration progress fails once a child
is itself a Branch that absorbs its take only partially. -/
theorem C3_flex_loop_terminates_amended (f fuel : Nat) (cs : Children) (amt : ℚ)
    (hgood : GoodFlex cs) (hamt : 0 ≤ amt)
    (hfuel : underCapFlexCount cs < fuel) :
    ¬(totalFlex (flex_loop (deposit f) fuel cs amt).1 ≠ 0
      ∧ (flex_loop (deposit f) fuel cs amt).2 > 1/100) := by
  obtain ⟨-, -, -, -, -, -, l7⟩ :=
    flex_loop_good (deposit f) (deposit_leaf f) fuel cs amt hgood hamt hfuel
  rcases l7 with h | h
  · intro hcon
    exact hcon.1 h
  · intro hcon
    exact absurd hcon.2 (not_lt.2 h)


theorem C3_witness :
    ¬(totalFlex (flex_loop (deposit 2) 3 (.cons (.Leaf "a" 1 10) (.Flex 2)
        (.cons (.Leaf "b" 0 20) (.Flex 1) .nil)) 50).1 ≠ 0
      ∧ (flex_loop (deposit 2) 3 (.cons (.Leaf "a" 1 10) (.Flex 2)
        (.cons (.Leaf "b" 0 20) (.Flex 1) .nil)) 50).2 > 1/100) :=
  C3_flex_loop_terminates_amended 2 3 _ 50
    (GoodFlex.cons "a" 1 10 2 _ (by norm_num) (by norm_num)
      (GoodFlex.cons "b" 0 20 1 _ (by norm_num) (by norm_num) GoodFlex.nil))
    (by norm_num)
    (by norm_num [underCapFlexCount, until_max, maxTotal, maxTotalC, balance, balanceC])


theorem preorder_head (a : Account) : ∃ l, preorder a = a :: l := by
  cases a with
  | Leaf n b m => exact ⟨[], rfl⟩
  | Branch n cs => exact ⟨preorderC cs, rfl⟩


theorem find_child_eq_find? :
    (∀ a nm, find_child a nm = (preorder a).find? (fun x => nameOf x == nm))
    ∧ (∀ cs nm, findChildC cs nm = (preorderC cs).find? (fun x => nameOf x == nm)) := by
  refine treeInduction _ _ ?_ ?_ ?_ ?_
  · intro n b m nm
    by_cases h : n = nm
    · simp [find_child, preorder, nameOf, h]
    · simp [find_child, preorder, nameOf, h]
  · intro n cs ih nm
    by_cases h : n = nm
    · simp [find_child, preorder, nameOf, h]
    · simp [find_child, preorder, nameOf, h, ih]
  · intro nm
    simp [findChildC, preorderC]
  · intro a i rest iha ihr nm
    obtain ⟨l, hl⟩ := preorder_head a
    simp only [findChildC, preorderC]
    by_cases h : nameOf a = nm
    · rw [if_pos h, hl, List.cons_append, List.find?_cons_of_pos _ (by simp [h])]
    · rw [if_neg h, iha nm, hl, List.cons_append,
        List.find?_cons_of_neg _ (by simp [h]), List.find?_cons_of_neg _ (by simp [h]),
        List.find?_append, ihr nm]
      cases hfl : List.find? (fun x => nameOf x == nm) l with
      | none => simp
      | some r => simp


/-- C6: `find_child` performs a depth-first pre-order traversal in stored
sibling order (a node's own name first, then each child's name before its
subtree) and returns the first match in that order — deterministically the
first pre-order match under duplicate names — or none when no node carries
the name. -/
theorem C6_find_child_first_preorder_match (a : Account) (nm : String) :
    find_child a nm = (preorder a).find? (fun x => nameOf x == nm) :=
  find_child_eq_find?.1 a nm


theorem names_branch (n : String) (cs : Children) :
    names (.Branch n cs) = n :: namesC cs := by
  simp [names, namesC, preorder, nameOf]


theorem namesC_cons (a : Account) (i : Inflow) (rest : Children) :
    namesC (.cons a i rest) = names a ++ namesC rest := by
  simp [names, namesC, preorderC]


theorem nameOf_eq_of_names_eq {x y : Account} (h : names x = names y) :
    nameOf x = nameOf y := by
  obtain ⟨lx, hx⟩ := preorder_head x
  obtain ⟨ly, hy⟩ := preorder_head y
  simp only [names, hx, hy, List.map_cons, List.cons.injEq] at h
  exact h.1


theorem find_child_eq_none_iff (a : Account) (nm : String) :
    find_child a nm = none ↔ nm ∉ names a := by
  rw [find_child_eq_find?.1, List.find?_eq_none]
  simp [names]


/-- A node whose own name matches is returned immediately. -/
theorem find_child_self (x : Account) (nm : String) (h : nameOf x = nm) :
    find_child x nm = some x := by
  cases x with
  | Leaf n b m => simp [find_child, nameOf] at h ⊢; simp [h]
  | Branch n cs => simp [find_child, nameOf] at h ⊢; simp [h]


/-- If the name is absent, `update_at` reports none. -/
theorem update_at_none (f : Account → Except String Account) :
    (∀ a nm, find_child a nm = none → update_at f a nm = none)
    ∧ (∀ cs nm, findChildC cs nm = none → updateAtC f cs nm = none) := by
  refine treeInduction _ _ ?_ ?_ ?_ ?_
  · intro n b m nm hf
    simp only [find_child, nameOf] at hf
    simp only [update_at, nameOf]
    by_cases h : n = nm
    · rw [if_pos h] at hf
      exact Option.noConfusion hf
    · rw [if_neg h]
  · intro n cs ih nm hf
    simp only [find_child, nameOf] at hf
    simp only [update_at, nameOf]
    by_cases h : n = nm
    · rw [if_pos h] at hf
      exact Option.noConfusion hf
    · rw [if_neg h] at hf ⊢
      rw [ih nm hf]
  · intro nm _
    rfl
  · intro c i rest ihc ihr nm hf
    simp only [findChildC] at hf
    simp only [updateAtC]
    by_cases h : nameOf c = nm
    · rw [if_pos h] at hf
      exact Option.noConfusion hf
    · rw [if_neg h] at hf ⊢
      cases hfc : find_child c nm with
      | some r =>
          rw [hfc] at hf
          exact Option.noConfusion hf
      | none =>
          rw [hfc] at hf
          rw [ihc nm hfc, ihr nm hf]


/-- If `f` fails at the located node, `update_at` surfaces exactly that
error. -/
theorem update_at_error (f : Account → Except String Account) :
    (∀ a nm t e, find_child a nm = some t → f t = .error e →
        update_at f a nm = some (.error e))
    ∧ (∀ cs nm t e, findChildC cs nm = some t → f t = .error e →
        updateAtC f cs nm = some (.error e)) := by
  refine treeInduction _ _ ?_ ?_ ?_ ?_
  · intro n b m nm t e hf he
    simp only [find_child, nameOf] at hf
    simp only [update_at, nameOf]
    by_cases h : n = nm
    · rw [if_pos h] at hf
      obtain rfl : Account.Leaf n b m = t := Option.some.inj hf
      rw [if_pos h, he]
    · rw [if_neg h] at hf
      exact Option.noConfusion hf
  · intro n cs ih nm t e hf he
    simp only [find_child, nameOf] at hf
    simp only [update_at, nameOf]
    by_cases h : n = nm
    · rw [if_pos h] at hf
      obtain rfl : Account.Branch n cs = t := Option.some.inj hf
      rw [if_pos h, he]
    · rw [if_neg h] at hf ⊢
      rw [ih nm t e hf he]
  · intro nm t e hf _
    exact Option.noConfusion hf
  · intro c i rest ihc ihr nm t e hf he
    simp only [findChildC] at hf
    simp only [updateAtC]
    by_cases h : nameOf c = nm
    · rw [if_pos h] at hf
      obtain rfl : c = t := Option.some.inj hf
      rw [if_pos h, he]
    · rw [if_neg h] at hf ⊢
      cases hfc : find_child c nm with
      | some r =>
          rw [hfc] at hf
          obtain rfl : r = t := Option.some.inj hf
          rw [ihc nm _ e hfc he]
      | none =>
          rw [hfc] at hf
          rw [(update_at_none f).1 c nm hfc, ihr nm t e hf he]


/-- If `f` succeeds at the located node and preserves names, `update_at`
splices the transformed node in place: the tree's aggregate balance shifts
by exactly the node's balance change, the tree's name list is unchanged,
and a fresh lookup of the same name now returns the transformed node. -/
theorem update_at_ok (f : Account → Except String Account)
    (hnames : ∀ x y, f x = .ok y → names y = names x) :
    (∀ a nm t t2, find_child a nm = some t → f t = .ok t2 →
        ∃ r, update_at f a nm = some (.ok r)
          ∧ balance r = balance a - balance t + balance t2
          ∧ names r = names a
          ∧ find_child r nm = some t2)
    ∧ (∀ cs nm t t2, findChildC cs nm = some t → f t = .ok t2 →
        ∃ cs2, updateAtC f cs nm = some (.ok cs2)
          ∧ balanceC cs2 = balanceC cs - balance t + balance t2
          ∧ namesC cs2 = namesC cs
          ∧ findChildC cs2 nm = some t2) := by
  refine treeInduction _ _ ?_ ?_ ?_ ?_
  · intro n b m nm t t2 hf hok
    simp only [find_child, nameOf] at hf
    by_cases h : n = nm
    · rw [if_pos h] at hf
      obtain rfl : Account.Leaf n b m = t := Option.some.inj hf
      refine ⟨t2, ?_, by simp, hnames _ _ hok, ?_⟩
      · simp only [update_at, nameOf]
        rw [if_pos h, hok]
      · refine find_child_self t2 nm ?_
        have := nameOf_eq_of_names_eq (hnames _ _ hok)
        rw [this, nameOf, h]
    · rw [if_neg h] at hf
      exact Option.noConfusion hf
  · intro n cs ih nm t t2 hf hok
    simp only [find_child, nameOf] at hf
    by_cases h : n = nm
    · rw [if_pos h] at hf
      obtain rfl : Account.Branch n cs = t := Option.some.inj hf
      refine ⟨t2, ?_, by simp, hnames _ _ hok, ?_⟩
      · simp only [update_at, nameOf]
        rw [if_pos h, hok]
      · refine find_child_self t2 nm ?_
        have := nameOf_eq_of_names_eq (hnames _ _ hok)
        rw [this, nameOf, h]
    · rw [if_neg h] at hf
      obtain ⟨cs2, h1, h2, h3, h4⟩ := ih nm t t2 hf hok
      refine ⟨.Branch n cs2, ?_, by simpa using h2, ?_, ?_⟩
      · simp only [update_at, nameOf]
        rw [if_neg h, h1]
      · rw [names_branch, names_branch, h3]
      · simp only [find_child, nameOf]
        rw [if_neg h]
        exact h4
  · intro nm t t2 hf _
    exact Option.noConfusion hf
  · intro c i rest ihc ihr nm t t2 hf hok
    simp only [findChildC] at hf
    by_cases h : nameOf c = nm
    · rw [if_pos h] at hf
      obtain rfl : c = t := Option.some.inj hf
      refine ⟨.cons t2 i rest, ?_, by simp; ring, ?_, ?_⟩
      · simp only [updateAtC]
        rw [if_pos h, hok]
      · rw [namesC_cons, namesC_cons, hnames _ _ hok]
      · have hn2 : nameOf t2 = nm := by
          rw [nameOf_eq_of_names_eq (hnames _ _ hok), h]
        simp only [findChildC]
        rw [if_pos hn2]
    · rw [if_neg h] at hf
      cases hfc : find_child c nm with
      | some r =>
          rw [hfc] at hf
          obtain rfl : r = t := Option.some.inj hf
          obtain ⟨c2, h1, h2, h3, h4⟩ := ihc nm _ t2 hfc hok
          refine ⟨.cons c2 i rest, ?_, ?_, ?_, ?_⟩
          · simp only [updateAtC]
            rw [if_neg h, h1]
          · simp only [balanceC_cons]
            linarith
          · rw [namesC_cons, namesC_cons, h3]
          · have hn2 : nameOf c2 = nameOf c := nameOf_eq_of_names_eq h3
            simp only [findChildC]
            rw [hn2, if_neg h, h4]
      | none =>
          rw [hfc] at hf
          obtain ⟨cs2, h1, h2, h3, h4⟩ := ihr nm t t2 hf hok
          refine ⟨.cons c i cs2, ?_, ?_, ?_, ?_⟩
          · simp only [updateAtC]
            rw [if_neg h, (update_at_none f).1 c nm hfc, h1]
          · simp only [balanceC_cons]
            linarith
          · rw [namesC_cons, namesC_cons, h3]
          · simp only [findChildC]
            rw [if_neg h, hfc, h4]


/-- C5: withdraw on a Leaf always succeeds and subtracts the amount
unconditionally (no sufficiency check — the balance may go negative);
withdraw on a Branch fails with the invalid-operation error, and at the
apply level a Withdraw action resolving to a Branch returns that error
with the whole tree unchanged. -/
theorem C5_withdraw_leaf_unconditional_branch_error :
    (∀ n b m amt, withdraw (.Leaf n b m) amt = .ok (.Leaf n (b - amt) m))
    ∧ (∀ n cs amt, withdraw (.Branch n cs) amt
        = .error "Cannot withdraw from a branch node")
    ∧ (∀ root nm amt bn bcs, find_child root nm = some (.Branch bn bcs) →
        applyWithdraw root nm amt
          = (root, some "Cannot withdraw from a branch node")) := by
  refine ⟨fun n b m amt => rfl, fun n cs amt => rfl, ?_⟩
  intro root nm amt bn bcs hf
  have herr := (update_at_error (fun a => withdraw a amt)).1 root nm _
    "Cannot withdraw from a branch node" hf rfl
  simp [applyWithdraw, herr]


theorem C5_witness :
    withdraw (.Leaf "a" 5 10) 2 = .ok (.Leaf "a" 3 10)
    ∧ applyWithdraw (.Branch "root" (.cons (.Leaf "x" 1 2) (.Fixed 0) .nil)) "root" 7
      = (.Branch "root" (.cons (.Leaf "x" 1 2) (.Fixed 0) .nil),
         some "Cannot withdraw from a branch node") := by
  constructor
  · have h := C5_withdraw_leaf_unconditional_branch_error.1 "a" 5 10 2
    rw [h]
    norm_num
  · exact C5_withdraw_leaf_unconditional_branch_error.2.2 _ "root" 7 "root"
      (.cons (.Leaf "x" 1 2) (.Fixed 0) .nil) (by simp [find_child, nameOf])


/-- Names are preserved by a successful withdraw (it only succeeds on a
Leaf and only changes its balance). -/
theorem withdraw_names (amt : ℚ) :
    ∀ x y, withdraw x amt = .ok y → names y = names x := by
  intro x y h
  cases x with
  | Leaf n b m =>
      simp only [withdraw, Except.ok.injEq] at h
      rw [← h]
      simp [names, preorder, nameOf]
  | Branch n cs =>
      simp [withdraw] at h


/-- C4: Transfer from an account whose lookup yields a Leaf to a target
name absent from the tree reports the deposit-lookup not-found error, the
source is left debited by the amount (the withdraw step already committed
against live state), and the debited amount is not present anywhere else:
the tree's aggregate balance drops by exactly the amount. -/
theorem C4_transfer_partial_failure (fuel : Nat) (root : Account)
    (src dst nmL : String) (b mx amt : ℚ)
    (hsrc : find_child root src = some (.Leaf nmL b mx))
    (hdst : find_child root dst = none) :
    ∃ r, applyTransfer fuel root src (some dst) amt
        = (r, some ("Could not find parent account " ++ dst ++ " to deposit to"))
      ∧ balance r = balance root - amt
      ∧ find_child r src = some (.Leaf nmL (b - amt) mx) := by
  have hw : withdraw (.Leaf nmL b mx) amt = .ok (.Leaf nmL (b - amt) mx) := rfl
  obtain ⟨r, hupd, hbal, hnm, hfind⟩ :=
    (update_at_ok (fun a => withdraw a amt) (withdraw_names amt)).1
      root src _ _ hsrc hw
  have hwstep : applyWithdraw root src amt = (r, none) := by
    simp [applyWithdraw, hupd]
  have hrdst : find_child r dst = none := by
    rw [find_child_eq_none_iff, hnm]
    rw [find_child_eq_none_iff] at hdst
    exact hdst
  have hdstep : applyDeposit fuel r (some dst) amt
      = (r, some ("Could not find parent account " ++ dst ++ " to deposit to")) := by
    have hnone := (update_at_none (fun a => .ok (deposit fuel a amt))).1 r dst hrdst
    simp [applyDeposit, hnone]
  refine ⟨r, ?_, ?_, hfind⟩
  · simp [applyTransfer, hwstep, hdstep]
  · simp only [balance_leaf] at hbal
    linarith


theorem C4_witness :
    ∃ r, applyTransfer 2 (.Branch "root" (.cons (.Leaf "a" 10 100) (.Fixed 0) .nil))
        "a" (some "zzz") 4
        = (r, some ("Could not find parent account " ++ "zzz" ++ " to deposit to"))
      ∧ balance r
          = balance (Account.Branch "root" (.cons (.Leaf "a" 10 100) (.Fixed 0) .nil)) - 4
      ∧ find_child r "a" = some (.Leaf "a" (10 - 4) 100) :=
  C4_transfer_partial_failure 2 _ "a" "zzz" "a" 10 100 4
    (by simp [find_child, findChildC, nameOf])
    (by simp [find_child, findChildC, nameOf])


end Budget
